import Mathlib

/-!
Verification of the neuropredict regression front-end and its metric
calculator, against the repository specification.

The confusion-matrix metric `balanced_accuracy` lives in
`neuropredict/utils.py`, which is exercised by
`neuropredict/tests/test_metrics.py` but is not itself among the provided
sources; likewise the split generator and evaluation engine (the `rhst`
module). Those are modelled from the specification text, as marked on each
definition. Everything else is embedded directly from
`neuropredict/regress.py`.

Rational numbers stand in for the floating-point values of the Python code;
the tolerances of the spec (1e-6, 1e-4) are kept in the statements.
-/

/-! ## Metric Calculator (`balanced_accuracy`) -/

/-- Modelled from the spec: helper for `neuropredict.utils.balanced_accuracy`
(imported by the metric test, missing from the provided sources).  Walks the
rows of a confusion matrix carrying the row index `i`, and collects the
per-class recall `diagonal[i] / row_sum[i]` for every row with nonzero
total, skipping rows whose total is zero. -/
def recallsAux : Nat → List (List ℚ) → List ℚ
  | _, [] => []
  | i, row :: rest =>
    if row.sum = 0 then recallsAux (i + 1) rest
    else (row.getD i 0 / row.sum) :: recallsAux (i + 1) rest

/-- Modelled from the spec: the list of per-class recalls of a confusion
matrix, one entry per class present (row with nonzero total). -/
def perClassRecalls (cm : List (List ℚ)) : List ℚ := recallsAux 0 cm

/-- Modelled from the spec: `balanced_accuracy(confusion_matrix)` is the
mean, over all classes present (rows with nonzero total), of
`diagonal[i] / row_sum[i]` (per-class recall), ignoring classes with zero
samples.  (In ℚ, division by zero yields zero, so an empty matrix gives 0.) -/
def balanced_accuracy (cm : List (List ℚ)) : ℚ :=
  (perClassRecalls cm).sum / ((perClassRecalls cm).length : ℚ)

/-! ## Split Generator (modelled from the spec; the repository's `rhst`
module is referenced by `regress.py` but missing from the provided sources) -/

/-- A Split: a pair of train/test index sets over the sample population for
one repetition. -/
structure Split where
  train : List ℕ
  test : List ℕ
deriving DecidableEq

/-- Modelled from the spec: the positions (offset by `i`) at which the label
list carries class `c`. -/
def classIndicesAux : ℕ → List ℕ → ℕ → List ℕ
  | _, [], _ => []
  | i, l :: rest, c =>
    if l = c then i :: classIndicesAux (i + 1) rest c
    else classIndicesAux (i + 1) rest c

/-- Modelled from the spec: the sample indices of class `c`. -/
def classIndices (labels : List ℕ) (c : ℕ) : List ℕ := classIndicesAux 0 labels c

/-- Modelled from the spec: the number of samples of class `c`. -/
def countLabel (labels : List ℕ) (c : ℕ) : ℕ := (classIndices labels c).length

/-- Modelled from the spec: each class contributes
`round(class_count * train_fraction)` samples to train, minimum 1. -/
def trainCount (frac : ℚ) (n : ℕ) : ℕ := max 1 (round ((n : ℚ) * frac)).toNat

/-- Modelled from the spec: a reproducible pseudo-random step (a linear
congruential generator), standing in for the seeded random number generator. -/
def lcg (s : ℕ) : ℕ := (1103515245 * s + 12345) % 2147483648

/-- Modelled from the spec: the deterministic re-draw of a class's index list
for a given seed — a rotation by a seed-derived offset, hence a permutation
of the indices. -/
def shuffleIdx (seed : ℕ) (idxs : List ℕ) : List ℕ :=
  idxs.rotate (lcg seed % max 1 idxs.length)

/-- Modelled from the spec: the samples of class `c` drawn into train for one
repetition. -/
def trainOfClass (labels : List ℕ) (frac : ℚ) (seed c : ℕ) : List ℕ :=
  (shuffleIdx seed (classIndices labels c)).take
    (trainCount frac (countLabel labels c))

/-- Modelled from the spec: the remainder of class `c`, eligible for test. -/
def testOfClass (labels : List ℕ) (frac : ℚ) (seed c : ℕ) : List ℕ :=
  (shuffleIdx seed (classIndices labels c)).drop
    (trainCount frac (countLabel labels c))

/-- Modelled from the spec: the stratified Split for one repetition: per
class, `round(count * train_fraction)` (minimum 1) samples to train, the
remainder to test. -/
def makeSplit (labels : List ℕ) (frac : ℚ) (seed : ℕ) : Split :=
  { train := (labels.dedup.map (trainOfClass labels frac seed)).flatten
    test := (labels.dedup.map (testOfClass labels frac seed)).flatten }

/-- The fatal error of the Split Generator. -/
inductive SplitError
  | insufficientSamples
deriving DecidableEq

/-- Modelled from the spec:
`generate_splits(labels_or_targets, train_fraction, num_repetitions, seed)`
(the `rhst` module is missing from the provided sources).  Fails with
`InsufficientSamplesError` when any class has fewer than 2 members; otherwise
yields exactly `num_repetitions` Split values, the `r`-th drawn with the
seed advanced deterministically per repetition index (`seed + r`). -/
def generate_splits (labels : List ℕ) (frac : ℚ) (nreps seed : ℕ) :
    Except SplitError (List Split) :=
  if h : ∀ c ∈ labels.dedup, 2 ≤ countLabel labels c then
    Except.ok ((List.range nreps).map (fun r => makeSplit labels frac (seed + r)))
  else
    Except.error SplitError.insufficientSamples

/-! ## Evaluation Engine (modelled from the spec) -/

/-- The engine's terminal and intermediate states. -/
inductive EngineState
  | configured
  | running
  | completed
  | partlyFailed
  | aborted
deriving DecidableEq

/-- The engine's outcome: terminal state, the successful Repetition Results
keyed and ordered by repetition index, and the failed repetition indices. -/
structure RunOutcome where
  state : EngineState
  results : List (ℕ × ℕ)
  failures : List ℕ
deriving DecidableEq

/-- Modelled from the spec: the Evaluation Engine's repetition loop (the
`rhst` module is missing from the provided sources).  A worker returns
`some result` or `none` (a typed Failure) per repetition index; the engine
collects the successes ordered by original repetition index, records the
failed indices, and ends COMPLETED when all succeed, ABORTED when all fail,
and PARTIALLY_FAILED otherwise. -/
def run_engine (nreps : ℕ) (worker : ℕ → Option ℕ) : RunOutcome :=
  let outcomes := (List.range nreps).map (fun r => (r, worker r))
  let successes := outcomes.filterMap (fun p => p.2.map (fun v => (p.1, v)))
  let failed := (outcomes.filter (fun p => p.2.isNone)).map Prod.fst
  let st :=
    if failed.isEmpty then EngineState.completed
    else if successes.isEmpty then EngineState.aborted
    else EngineState.partlyFailed
  ⟨st, successes, failed⟩

/-- Modelled from the spec: the full run — splits are generated up front,
and a split-generation failure aborts the run before any repetition is
dispatched. -/
def run_experiment (labels : List ℕ) (frac : ℚ) (nreps seed : ℕ)
    (worker : Split → ℕ → Option ℕ) : Except SplitError RunOutcome :=
  match generate_splits labels frac nreps seed with
  | Except.error e => Except.error e
  | Except.ok splits =>
      Except.ok (run_engine nreps (fun r => worker (splits.getD r ⟨[], []⟩) r))

/-- An artificial pipeline worker that fails exactly on repetition indices 3
and 7 and otherwise succeeds with the value `f r`. -/
def failWorker (f : ℕ → ℕ) : ℕ → Option ℕ :=
  fun r => if r = 3 ∨ r = 7 then none else some (f r)

/-! ## The stubs and validators of `regress.py` -/

/-- The Python errors raised by `regress.py`. -/
inductive PyError
  | typeError
  | valueError
  | ioError
deriving DecidableEq

/-- From `regress.py` (`RegressionExperiment.__init__`): the fields an
experiment is constructed with. -/
structure RegressionExperiment where
  datasets : List String
  pred_model : String
  dim_red_method : String
  reduced_dim : ℕ
  train_perc : ℚ
  num_rep_cv : ℕ
  grid_search_level : String
  sub_groups : Option (List String)
  num_procs : ℕ

/-- From `regress.py` lines 231–233: `RegressionExperiment.run` has an empty
body — it returns `None` and leaves the experiment unchanged. -/
def RegressionExperiment.run (e : RegressionExperiment) :
    Option ℕ × RegressionExperiment := (none, e)

/-- From `regress.py` lines 187–193: `prepare_and_run` has body `pass` — for
every input it returns `None` and performs no computation. -/
def prepare_and_run (subjects classes : List String)
    (out_dir options_path : String) (user_feature_paths : List String)
    (user_feature_type fs_subject_dir : String) (train_perc : ℚ)
    (num_rep_cv feature_selection_size : ℕ) (impute_strategy : String)
    (num_procs : ℕ) (grid_search_level classifier feat_select_method : String) :
    Option ℕ :=
  none

/-- From `regress.py` lines 127–130: after the training percentage is
converted, `parse_args` raises ValueError unless
`0.01 <= train_perc <= 0.99`. -/
def validate_train_perc (train_perc : ℚ) : Except PyError ℚ :=
  if ¬ (1 / 100 ≤ train_perc ∧ train_perc ≤ 99 / 100) then
    Except.error PyError.valueError
  else Except.ok train_perc

/-- From `regress.py` lines 132–134: `parse_args` raises ValueError when
fewer than 10 repetitions of CV are requested. -/
def validate_num_rep_cv (num_rep_cv : ℤ) : Except PyError ℤ :=
  if num_rep_cv < 10 then Except.error PyError.valueError
  else Except.ok num_rep_cv

/-- From `regress.py`: the numeric validation chain of `parse_args`. -/
def parse_args_validate (train_perc : ℚ) (num_rep_cv : ℤ) :
    Except PyError (ℚ × ℤ) :=
  match validate_train_perc train_perc with
  | Except.error e => Except.error e
  | Except.ok tp =>
      match validate_num_rep_cv num_rep_cv with
      | Except.error e => Except.error e
      | Except.ok nr => Except.ok (tp, nr)

/-- From `regress.py` (`cli`): parse and validate the arguments, then
dispatch the repetition work to `prepare_and_run`; a validation error
prevents any dispatch. -/
def cli_dispatch (train_perc : ℚ) (num_rep_cv : ℤ) : Except PyError (Option ℕ) :=
  match parse_args_validate train_perc num_rep_cv with
  | Except.error e => Except.error e
  | Except.ok parsed =>
      Except.ok (prepare_and_run [] [] ⟨[]⟩ ⟨[]⟩ [] ⟨[]⟩ ⟨[]⟩ parsed.1
        parsed.2.toNat 1 ⟨[]⟩ 1 ⟨[]⟩ ⟨[]⟩ ⟨[]⟩)

/-- From `regress.py` lines 196–197: `make_visualizations` is defined with
zero parameters. -/
def make_visualizations_paramCount : ℕ := 0

/-- From `regress.py` lines 196–197: the body of `make_visualizations` is
`pass`. -/
def make_visualizations_body : Except PyError (Option ℕ) := Except.ok none

/-- Python call semantics at a call site: calling a function declared with
`paramCount` positional parameters on `argCount` positional arguments raises
TypeError unless the counts agree; only then does the body run. -/
def callPy (paramCount argCount : ℕ) (body : Except PyError (Option ℕ)) :
    Except PyError (Option ℕ) :=
  if argCount = paramCount then body else Except.error PyError.typeError

/-- From `regress.py` lines 86–95: the visualization branch of `parse_args`
— reached with exactly 3 command-line arguments, no feature paths and
`make_vis` given.  When the output folder and its results file both exist it
calls `make_visualizations(res_path, out_dir)` with two positional
arguments; otherwise it raises ValueError. -/
def vis_branch (out_dir_exists res_path_exists : Bool) :
    Except PyError (Option ℕ) :=
  if out_dir_exists && res_path_exists then
    callPy make_visualizations_paramCount 2 make_visualizations_body
  else Except.error PyError.valueError

theorem sum_eq_zero_of_all_zero (l : List ℚ)
    (h : ∀ j, j < l.length → l.getD j 0 = 0) : l.sum = 0 := by
  induction l with
  | nil => rfl
  | cons x xs ih =>
      have hx : x = 0 := h 0 (Nat.succ_pos _)
      have hxs : xs.sum = 0 := by
        refine ih (fun j hj => ?_)
        have := h (j + 1) (Nat.succ_lt_succ hj)
        simpa using this
      simp [hx, hxs]

theorem sum_eq_getD_of_offdiag_zero (l : List ℚ) :
    ∀ i, i < l.length → (∀ j, j < l.length → j ≠ i → l.getD j 0 = 0) →
    l.sum = l.getD i 0 := by
  induction l with
  | nil => intro i hi; exact absurd hi (Nat.not_lt_zero _)
  | cons x xs ih =>
      intro i hi h
      match i with
      | 0 =>
          have hxs : xs.sum = 0 := by
            refine sum_eq_zero_of_all_zero xs (fun j hj => ?_)
            have := h (j + 1) (Nat.succ_lt_succ hj) (Nat.succ_ne_zero j)
            simpa using this
          simp [hxs]
      | k + 1 =>
          have hx : x = 0 := by
            have := h 0 (Nat.succ_pos _) (Ne.symm (Nat.succ_ne_zero k))
            simpa using this
          have hk : k < xs.length := Nat.lt_of_succ_lt_succ hi
          have hxs : xs.sum = xs.getD k 0 := by
            refine ih k hk (fun j hj hjk => ?_)
            have := h (j + 1) (Nat.succ_lt_succ hj)
              (fun hc => hjk (Nat.succ_injective hc))
            simpa using this
          simp [hx, hxs]

theorem recallsAux_all_perfect (cm : List (List ℚ)) :
    ∀ i, (∀ k, k < cm.length →
        (cm.getD k []).sum = (cm.getD k []).getD (i + k) 0 ∧
        0 < (cm.getD k []).getD (i + k) 0) →
    recallsAux i cm = List.replicate cm.length 1 := by
  induction cm with
  | nil => intro i _; rfl
  | cons row rest ih =>
      intro i h
      have h0 := h 0 (Nat.succ_pos _)
      simp only [List.getD_cons_zero, Nat.add_zero] at h0
      have hsum_pos : 0 < row.sum := h0.1 ▸ h0.2
      have hsum_ne : row.sum ≠ 0 := ne_of_gt hsum_pos
      have hdiv : row.getD i 0 / row.sum = 1 := by
        rw [← h0.1]; exact div_self hsum_ne
      have hrest : recallsAux (i + 1) rest = List.replicate rest.length 1 := by
        refine ih (i + 1) (fun k hk => ?_)
        have := h (k + 1) (Nat.succ_lt_succ hk)
        simp only [List.getD_cons_succ] at this
        have harith : i + (k + 1) = i + 1 + k := by omega
        rw [harith] at this
        exact this
      simp only [recallsAux, if_neg hsum_ne, hdiv, hrest, List.length_cons,
        List.replicate_succ]

theorem recallsAux_all_wrong (cm : List (List ℚ)) :
    ∀ i, (∀ k, k < cm.length →
        (cm.getD k []).getD (i + k) 0 = 0 ∧ 0 < (cm.getD k []).sum) →
    recallsAux i cm = List.replicate cm.length 0 := by
  induction cm with
  | nil => intro i _; rfl
  | cons row rest ih =>
      intro i h
      have h0 := h 0 (Nat.succ_pos _)
      simp only [List.getD_cons_zero, Nat.add_zero] at h0
      have hsum_ne : row.sum ≠ 0 := ne_of_gt h0.2
      have hdiv : row.getD i 0 / row.sum = 0 := by
        rw [h0.1]; exact zero_div _
      have hrest : recallsAux (i + 1) rest = List.replicate rest.length 0 := by
        refine ih (i + 1) (fun k hk => ?_)
        have := h (k + 1) (Nat.succ_lt_succ hk)
        simp only [List.getD_cons_succ] at this
        have harith : i + (k + 1) = i + 1 + k := by omega
        rw [harith] at this
        exact this
      simp only [recallsAux, if_neg hsum_ne, hdiv, hrest, List.length_cons,
        List.replicate_succ]

theorem recallsAux_targets (cm : List (List ℚ)) :
    ∀ a i, a.length = cm.length →
    (∀ k, k < cm.length →
        0 < (cm.getD k []).sum ∧
        (cm.getD k []).getD (i + k) 0 / (cm.getD k []).sum = a.getD k 0) →
    recallsAux i cm = a := by
  induction cm with
  | nil =>
      intro a i ha _
      have : a = [] := List.eq_nil_of_length_eq_zero ha
      simp [this, recallsAux]
  | cons row rest ih =>
      intro a i ha h
      match a with
      | [] => exact absurd ha.symm (Nat.succ_ne_zero _)
      | a0 :: as =>
          have h0 := h 0 (Nat.succ_pos _)
          simp only [List.getD_cons_zero, Nat.add_zero] at h0
          have hsum_ne : row.sum ≠ 0 := ne_of_gt h0.1
          have hrest : recallsAux (i + 1) rest = as := by
            refine ih as (i + 1) (Nat.succ_injective ha) (fun k hk => ?_)
            have := h (k + 1) (Nat.succ_lt_succ hk)
            simp only [List.getD_cons_succ] at this
            have harith : i + (k + 1) = i + 1 + k := by omega
            rw [harith] at this
            exact this
          simp only [recallsAux, if_neg hsum_ne, h0.2, hrest]

/-- C2: for every square confusion matrix whose off-diagonal entries are all
zero and whose diagonal entries are all positive, `balanced_accuracy` returns
1.0 within 1e-6 (in fact exactly 1). -/
theorem balanced_accuracy_perfect (cm : List (List ℚ))
    (hne : cm ≠ [])
    (hsq : ∀ row ∈ cm, row.length = cm.length)
    (hoff : ∀ k, k < cm.length → ∀ j, j < cm.length → j ≠ k →
        (cm.getD k []).getD j 0 = 0)
    (hdiag : ∀ k, k < cm.length → 0 < (cm.getD k []).getD k 0) :
    |balanced_accuracy cm - 1| ≤ 1 / 1000000 := by
  have hrow : ∀ k, k < cm.length →
      (cm.getD k []).sum = (cm.getD k []).getD k 0 := by
    intro k hk
    have hmem : cm.getD k [] ∈ cm := by
      rw [List.getD_eq_getElem _ _ hk]
      exact List.getElem_mem hk
    have hlen : (cm.getD k []).length = cm.length := hsq _ hmem
    refine sum_eq_getD_of_offdiag_zero _ k (hlen ▸ hk) (fun j hj hjk => ?_)
    exact hoff k hk j (hlen ▸ hj) hjk
  have hrec : perClassRecalls cm = List.replicate cm.length 1 := by
    refine recallsAux_all_perfect cm 0 (fun k hk => ?_)
    simp only [Nat.zero_add]
    exact ⟨hrow k hk, hdiag k hk⟩
  have hlen_pos : 0 < cm.length := List.length_pos.mpr hne
  have hcast : ((cm.length : ℚ)) ≠ 0 := by
    exact_mod_cast Nat.pos_iff_ne_zero.mp hlen_pos
  have hba : balanced_accuracy cm = 1 := by
    unfold balanced_accuracy
    rw [hrec, List.sum_replicate, List.length_replicate, nsmul_eq_mul, mul_one,
      div_self hcast]
  rw [hba]
  norm_num

/-- C2 witness: a concrete diagonal confusion matrix. -/
theorem balanced_accuracy_perfect_witness :
    |balanced_accuracy [[(2 : ℚ), 0], [0, 3]] - 1| ≤ 1 / 1000000 :=
  balanced_accuracy_perfect [[(2 : ℚ), 0], [0, 3]]
    (by decide) (by decide) (by decide) (by decide)

/-- C3: for every confusion matrix whose diagonal entries are all zero and
whose row totals are all positive, `balanced_accuracy` returns 0.0 within
1e-6 (in fact exactly 0). -/
theorem balanced_accuracy_all_wrong (cm : List (List ℚ))
    (hdiag : ∀ k, k < cm.length → (cm.getD k []).getD k 0 = 0)
    (hrow : ∀ k, k < cm.length → 0 < (cm.getD k []).sum) :
    |balanced_accuracy cm - 0| ≤ 1 / 1000000 := by
  have hrec : perClassRecalls cm = List.replicate cm.length 0 := by
    refine recallsAux_all_wrong cm 0 (fun k hk => ?_)
    simp only [Nat.zero_add]
    exact ⟨hdiag k hk, hrow k hk⟩
  have hba : balanced_accuracy cm = 0 := by
    unfold balanced_accuracy
    rw [hrec, List.sum_replicate, smul_zero, zero_div]
  rw [hba]
  norm_num

/-- C3 witness: a concrete zero-diagonal confusion matrix. -/
theorem balanced_accuracy_all_wrong_witness :
    |balanced_accuracy [[(0 : ℚ), 1], [2, 0]] - 0| ≤ 1 / 1000000 :=
  balanced_accuracy_all_wrong [[(0 : ℚ), 1], [2, 0]] (by decide)
    (by
      intro k hk
      simp only [List.length_cons, List.length_nil] at hk
      interval_cases k <;> norm_num)

/-- C1: for every confusion matrix in which each class `k` has per-class
accuracy `a[k]` (that is, `diagonal[k] / row_sum[k] = a[k]` with every row
total positive), `balanced_accuracy` returns the mean of `a` within 1e-4 (in
fact exactly): it equals the mean over classes with nonzero row total of
`diagonal[k] / row_sum[k]`. -/
theorem balanced_accuracy_mean_target (cm : List (List ℚ)) (a : List ℚ)
    (hlen : a.length = cm.length)
    (h : ∀ k, k < cm.length → 0 < (cm.getD k []).sum ∧
        (cm.getD k []).getD k 0 / (cm.getD k []).sum = a.getD k 0) :
    |balanced_accuracy cm - a.sum / (a.length : ℚ)| ≤ 1 / 10000 := by
  have hrec : perClassRecalls cm = a := by
    refine recallsAux_targets cm a 0 hlen (fun k hk => ?_)
    simp only [Nat.zero_add]
    exact h k hk
  have hba : balanced_accuracy cm = a.sum / (a.length : ℚ) := by
    unfold balanced_accuracy
    rw [hrec]
  rw [hba]
  norm_num

/-- C1 witness: a concrete confusion matrix hitting the per-class accuracy
vector `[1/2, 1/4]`, with balanced accuracy `3/8`. -/
theorem balanced_accuracy_mean_target_witness :
    |balanced_accuracy [[(1 : ℚ), 1], [3, 1]] -
        ([(1 : ℚ) / 2, 1 / 4].sum / (([(1 : ℚ) / 2, 1 / 4].length : ℚ)))| ≤
      1 / 10000 :=
  balanced_accuracy_mean_target [[(1 : ℚ), 1], [3, 1]] [(1 : ℚ) / 2, 1 / 4]
    (by decide)
    (by
      intro k hk
      simp only [List.length_cons, List.length_nil] at hk
      interval_cases k <;> norm_num)

/-- C8: `prepare_and_run` and `RegressionExperiment.run` are unimplemented
stubs: for every input, each returns `None`, performs no computation, and
leaves all state unchanged. -/
theorem stubs_unimplemented :
    (∀ (subjects classes : List String) (out_dir options_path : String)
        (ufp : List String) (uft fsd : String) (tp : ℚ) (nrc fss : ℕ)
        (imp : String) (np : ℕ) (gsl cls fsm : String),
      prepare_and_run subjects classes out_dir options_path ufp uft fsd tp
        nrc fss imp np gsl cls fsm = none) ∧
    (∀ e : RegressionExperiment, e.run = (none, e)) :=
  ⟨fun _ _ _ _ _ _ _ _ _ _ _ _ _ _ _ => rfl, fun _ => rfl⟩

/-- C9: in `parse_args`, after the training percentage is converted, a
ValueError is raised if and only if its value lies outside the closed
interval [0.01, 0.99]; in that case the CLI dispatches no repetition work
(the whole run errors before `prepare_and_run`). -/
theorem train_perc_validation (train_perc : ℚ) (num_rep_cv : ℤ) :
    ((∃ e, validate_train_perc train_perc = Except.error e) ↔
      (train_perc < 1 / 100 ∨ 99 / 100 < train_perc)) ∧
    ((train_perc < 1 / 100 ∨ 99 / 100 < train_perc) →
      cli_dispatch train_perc num_rep_cv = Except.error PyError.valueError) := by
  have herr : (train_perc < 1 / 100 ∨ 99 / 100 < train_perc) →
      validate_train_perc train_perc = Except.error PyError.valueError := by
    intro h
    unfold validate_train_perc
    rw [if_pos]
    push_neg
    intro h1
    rcases h with h | h
    · exact absurd h1 (not_le.mpr h)
    · exact h
  constructor
  · constructor
    · rintro ⟨e, he⟩
      by_contra hc
      push_neg at hc
      have hin : 1 / 100 ≤ train_perc ∧ train_perc ≤ 99 / 100 :=
        ⟨hc.1, hc.2⟩
      unfold validate_train_perc at he
      rw [if_neg (not_not_intro hin)] at he
      exact Except.noConfusion he
    · intro h
      exact ⟨PyError.valueError, herr h⟩
  · intro h
    unfold cli_dispatch parse_args_validate
    rw [herr h]

/-- C9 witness: a training percentage of 2 is out of bounds and the CLI
errors without dispatching. -/
theorem train_perc_validation_witness :
    cli_dispatch 2 10 = Except.error PyError.valueError :=
  (train_perc_validation 2 10).2 (Or.inr (by norm_num))

/-- C10: whenever the visualization branch of `parse_args` is reached with
the output folder and its results file both existing, the two-argument call
`make_visualizations(res_path, out_dir)` raises TypeError (the function is
defined with zero parameters); the branch can never complete successfully. -/
theorem vis_branch_type_error :
    vis_branch true true = Except.error PyError.typeError ∧
    (∀ b1 b2, ∃ e, vis_branch b1 b2 = Except.error e) := by
  constructor
  · rfl
  · intro b1 b2
    cases b1 <;> cases b2
    · exact ⟨PyError.valueError, rfl⟩
    · exact ⟨PyError.valueError, rfl⟩
    · exact ⟨PyError.valueError, rfl⟩
    · exact ⟨PyError.typeError, rfl⟩

/-- C7: running the engine with `num_repetitions = 20` and a pipeline that
fails exactly on repetition indices 3 and 7 terminates PARTIALLY_FAILED,
with exactly 18 successful Repetition Results ordered by original repetition
index and failure metadata listing exactly the indices 3 and 7. -/
theorem engine_partly_failed (f : ℕ → ℕ) :
    (run_engine 20 (failWorker f)).state = EngineState.partlyFailed ∧
    (run_engine 20 (failWorker f)).results.length = 18 ∧
    (run_engine 20 (failWorker f)).results =
      [0, 1, 2, 4, 5, 6, 8, 9, 10, 11, 12, 13, 14, 15, 16,
        17, 18, 19].map (fun r => (r, f r)) ∧
    (run_engine 20 (failWorker f)).failures = [3, 7] :=
  ⟨rfl, rfl, rfl, rfl⟩

/-- C4: for every valid input (at least 2 classes, each with at least 2
members) and any fixed seed, two runs of `generate_splits` with identical
arguments produce identical Split sequences; the sequence is the
deterministic image of the per-repetition seeds `seed + r`. -/
theorem generate_splits_deterministic (labels : List ℕ) (frac : ℚ)
    (nreps seed : ℕ)
    (hcls : 2 ≤ labels.dedup.length)
    (hvalid : ∀ c ∈ labels.dedup, 2 ≤ countLabel labels c) :
    generate_splits labels frac nreps seed =
      generate_splits labels frac nreps seed ∧
    generate_splits labels frac nreps seed =
      Except.ok
        ((List.range nreps).map (fun r => makeSplit labels frac (seed + r))) := by
  refine ⟨rfl, ?_⟩
  unfold generate_splits
  rw [dif_pos hvalid]

/-- C4 witness: two classes of two samples each. -/
theorem generate_splits_deterministic_witness :
    generate_splits [0, 0, 1, 1] (1 / 2) 3 5 =
      generate_splits [0, 0, 1, 1] (1 / 2) 3 5 ∧
    generate_splits [0, 0, 1, 1] (1 / 2) 3 5 =
      Except.ok
        ((List.range 3).map (fun r => makeSplit [0, 0, 1, 1] (1 / 2) (5 + r))) :=
  generate_splits_deterministic [0, 0, 1, 1] (1 / 2) 3 5 (by decide) (by decide)

/-- C6: `generate_splits` fails with `InsufficientSamplesError` if and only
if some class has fewer than 2 members, and the failure occurs at
split-generation time: the whole run aborts with that error before any
repetition is dispatched. -/
theorem generate_splits_insufficient (labels : List ℕ) (frac : ℚ)
    (nreps seed : ℕ) :
    ((generate_splits labels frac nreps seed =
        Except.error SplitError.insufficientSamples) ↔
      ∃ c ∈ labels.dedup, countLabel labels c < 2) ∧
    (∀ worker, generate_splits labels frac nreps seed =
        Except.error SplitError.insufficientSamples →
      run_experiment labels frac nreps seed worker =
        Except.error SplitError.insufficientSamples) := by
  constructor
  · unfold generate_splits
    by_cases h : ∀ c ∈ labels.dedup, 2 ≤ countLabel labels c
    · rw [dif_pos h]
      refine iff_of_false (fun hc => Except.noConfusion hc) ?_
      rintro ⟨c, hc, hlt⟩
      exact absurd (h c hc) (not_le.mpr hlt)
    · rw [dif_neg h]
      refine iff_of_true rfl ?_
      push_neg at h
      exact h
  · intro worker herr
    unfold run_experiment
    rw [herr]

theorem classIndicesAux_mem (labels : List ℕ) :
    ∀ i c x, x ∈ classIndicesAux i labels c →
      i ≤ x ∧ x - i < labels.length ∧ labels.getD (x - i) 0 = c := by
  induction labels with
  | nil => intro i c x hx; exact absurd hx (List.not_mem_nil x)
  | cons l rest ih =>
      intro i c x hx
      unfold classIndicesAux at hx
      by_cases hl : l = c
      · rw [if_pos hl] at hx
        rcases List.mem_cons.mp hx with hx0 | hx'
        · subst hx0
          refine ⟨le_refl _, ?_, ?_⟩
          · simp [Nat.sub_self]
          · simpa [Nat.sub_self] using hl
        · obtain ⟨h1, h2, h3⟩ := ih (i + 1) c x hx'
          refine ⟨by omega, by simp only [List.length_cons]; omega, ?_⟩
          have hxi : x - i = (x - (i + 1)) + 1 := by omega
          rw [hxi, List.getD_cons_succ]
          exact h3
      · rw [if_neg hl] at hx
        obtain ⟨h1, h2, h3⟩ := ih (i + 1) c x hx
        refine ⟨by omega, by simp only [List.length_cons]; omega, ?_⟩
        have hxi : x - i = (x - (i + 1)) + 1 := by omega
        rw [hxi, List.getD_cons_succ]
        exact h3

theorem classIndices_mem (labels : List ℕ) (c x : ℕ)
    (hx : x ∈ classIndices labels c) :
    x < labels.length ∧ labels.getD x 0 = c := by
  obtain ⟨h1, h2, h3⟩ := classIndicesAux_mem labels 0 c x hx
  rw [Nat.sub_zero] at h2 h3
  exact ⟨h2, h3⟩

theorem classIndicesAux_nodup (labels : List ℕ) :
    ∀ i c, (classIndicesAux i labels c).Nodup := by
  induction labels with
  | nil => intro i c; exact List.nodup_nil
  | cons l rest ih =>
      intro i c
      unfold classIndicesAux
      by_cases hl : l = c
      · rw [if_pos hl]
        refine List.nodup_cons.mpr ⟨?_, ih (i + 1) c⟩
        intro hmem
        have := (classIndicesAux_mem rest (i + 1) c i hmem).1
        omega
      · rw [if_neg hl]
        exact ih (i + 1) c

theorem classIndices_nodup (labels : List ℕ) (c : ℕ) :
    (classIndices labels c).Nodup :=
  classIndicesAux_nodup labels 0 c

theorem shuffleIdx_perm (seed : ℕ) (idxs : List ℕ) :
    List.Perm (shuffleIdx seed idxs) idxs :=
  List.rotate_perm idxs (lcg seed % max 1 idxs.length)

theorem shuffleIdx_length (seed : ℕ) (idxs : List ℕ) :
    (shuffleIdx seed idxs).length = idxs.length :=
  (shuffleIdx_perm seed idxs).length_eq

theorem shuffleIdx_nodup (seed : ℕ) (idxs : List ℕ) (h : idxs.Nodup) :
    (shuffleIdx seed idxs).Nodup :=
  List.nodup_rotate.mpr h

theorem trainOfClass_sub (labels : List ℕ) (frac : ℚ) (seed c x : ℕ)
    (hx : x ∈ trainOfClass labels frac seed c) : x ∈ classIndices labels c :=
  (shuffleIdx_perm seed (classIndices labels c)).mem_iff.mp
    (List.take_subset _ _ hx)

theorem testOfClass_sub (labels : List ℕ) (frac : ℚ) (seed c x : ℕ)
    (hx : x ∈ testOfClass labels frac seed c) : x ∈ classIndices labels c :=
  (shuffleIdx_perm seed (classIndices labels c)).mem_iff.mp
    (List.drop_subset _ _ hx)

theorem take_drop_not_both {l : List ℕ} (hl : l.Nodup) (k x : ℕ)
    (h1 : x ∈ l.take k) (h2 : x ∈ l.drop k) : False := by
  have hnd : (l.take k ++ l.drop k).Nodup := by
    rw [List.take_append_drop]
    exact hl
  exact List.disjoint_of_nodup_append hnd h1 h2

theorem makeSplit_train (labels : List ℕ) (frac : ℚ) (seed : ℕ) :
    (makeSplit labels frac seed).train =
      (labels.dedup.map (trainOfClass labels frac seed)).flatten := rfl

theorem makeSplit_test (labels : List ℕ) (frac : ℚ) (seed : ℕ) :
    (makeSplit labels frac seed).test =
      (labels.dedup.map (testOfClass labels frac seed)).flatten := rfl

theorem makeSplit_disjoint (labels : List ℕ) (frac : ℚ) (seed x : ℕ)
    (htr : x ∈ (makeSplit labels frac seed).train)
    (hte : x ∈ (makeSplit labels frac seed).test) : False := by
  rw [makeSplit_train] at htr
  rw [makeSplit_test] at hte
  obtain ⟨ltr, hltr, hxtr⟩ := List.mem_flatten.mp htr
  obtain ⟨c, hc, rfl⟩ := List.mem_map.mp hltr
  obtain ⟨lte, hlte, hxte⟩ := List.mem_flatten.mp hte
  obtain ⟨c2, hc2, rfl⟩ := List.mem_map.mp hlte
  have h1 := (classIndices_mem labels c x
    (trainOfClass_sub labels frac seed c x hxtr)).2
  have h2 := (classIndices_mem labels c2 x
    (testOfClass_sub labels frac seed c2 x hxte)).2
  have hcc : c = c2 := by rw [← h1, ← h2]
  subst hcc
  have hnd : (shuffleIdx seed (classIndices labels c)).Nodup :=
    shuffleIdx_nodup seed _ (classIndices_nodup labels c)
  unfold trainOfClass at hxtr
  unfold testOfClass at hxte
  exact take_drop_not_both hnd _ x hxtr hxte

theorem trainCount_le_count (frac : ℚ) (n : ℕ) (h1 : 1 ≤ n) (hf : frac ≤ 1) :
    trainCount frac n ≤ n := by
  unfold trainCount
  have hmul : (n : ℚ) * frac ≤ (n : ℚ) :=
    mul_le_of_le_one_right (Nat.cast_nonneg n) hf
  have hround : round ((n : ℚ) * frac) ≤ round ((n : ℚ) : ℚ) := by
    rw [round_eq, round_eq]
    exact Int.floor_le_floor (by linarith)
  rw [round_natCast] at hround
  have htn : (round ((n : ℚ) * frac)).toNat ≤ n := by
    have := Int.toNat_le_toNat hround
    simpa using this
  omega

theorem filter_flatten_single (g : ℕ → ℕ) (f : ℕ → List ℕ) (c : ℕ)
    (cs : List ℕ) :
    cs.Nodup → c ∈ cs → (∀ c2 ∈ cs, ∀ x ∈ f c2, g x = c2) →
      ((cs.map f).flatten.filter (fun i => g i == c)).length = (f c).length := by
  induction cs with
  | nil => intro _ hc _; exact absurd hc (List.not_mem_nil c)
  | cons c0 cs2 ih =>
      intro hnd hc hlab
      rw [List.map_cons, List.flatten_cons, List.filter_append,
        List.length_append]
      rcases List.mem_cons.mp hc with rfl | hc2
      · have hfc : (f c).filter (fun i => g i == c) = f c :=
          List.filter_eq_self.mpr (fun x hx => by
            rw [beq_iff_eq]
            exact hlab c (List.mem_cons_self _ _) x hx)
        have hrest : (cs2.map f).flatten.filter (fun i => g i == c) = [] := by
          rw [List.filter_eq_nil_iff]
          intro a ha
          obtain ⟨l, hl, hal⟩ := List.mem_flatten.mp ha
          obtain ⟨c2, hc2, rfl⟩ := List.mem_map.mp hl
          have hga : g a = c2 := hlab c2 (List.mem_cons_of_mem _ hc2) a hal
          have hne : c2 ≠ c := by
            intro hcc
            subst hcc
            exact (List.nodup_cons.mp hnd).1 hc2
          simp [hga, hne]
        rw [hfc, hrest]
        simp
      · have hne : c0 ≠ c := by
          intro hcc
          subst hcc
          exact (List.nodup_cons.mp hnd).1 hc2
        have hfc0 : (f c0).filter (fun i => g i == c) = [] := by
          rw [List.filter_eq_nil_iff]
          intro a ha
          have hga : g a = c0 := hlab c0 (List.mem_cons_self _ _) a ha
          simp [hga, hne]
        rw [hfc0]
        simp only [List.length_nil, Nat.zero_add]
        exact ih (List.nodup_cons.mp hnd).2 hc2
          (fun c2 hc3 x hx => hlab c2 (List.mem_cons_of_mem _ hc3) x hx)

theorem trainOfClass_length (labels : List ℕ) (frac : ℚ) (seed c : ℕ)
    (h1 : 1 ≤ countLabel labels c) (hf : frac ≤ 1) :
    (trainOfClass labels frac seed c).length =
      trainCount frac (countLabel labels c) := by
  unfold trainOfClass
  rw [List.length_take, shuffleIdx_length]
  have hle := trainCount_le_count frac (countLabel labels c) h1 hf
  unfold countLabel at hle ⊢
  omega

theorem testOfClass_length (labels : List ℕ) (frac : ℚ) (seed c : ℕ) :
    (testOfClass labels frac seed c).length =
      countLabel labels c - trainCount frac (countLabel labels c) := by
  unfold testOfClass
  rw [List.length_drop, shuffleIdx_length]
  rfl

theorem makeSplit_train_count (labels : List ℕ) (frac : ℚ) (seed c : ℕ)
    (hc : c ∈ labels.dedup) (h1 : 1 ≤ countLabel labels c) (hf : frac ≤ 1) :
    ((makeSplit labels frac seed).train.filter
        (fun i => labels.getD i 0 == c)).length =
      trainCount frac (countLabel labels c) := by
  rw [makeSplit_train,
    filter_flatten_single (fun i => labels.getD i 0)
      (trainOfClass labels frac seed) c labels.dedup (List.nodup_dedup labels)
      hc
      (fun c2 _ x hx =>
        (classIndices_mem labels c2 x
          (trainOfClass_sub labels frac seed c2 x hx)).2)]
  exact trainOfClass_length labels frac seed c h1 hf

theorem makeSplit_test_count (labels : List ℕ) (frac : ℚ) (seed c : ℕ)
    (hc : c ∈ labels.dedup) :
    ((makeSplit labels frac seed).test.filter
        (fun i => labels.getD i 0 == c)).length =
      countLabel labels c - trainCount frac (countLabel labels c) := by
  rw [makeSplit_test,
    filter_flatten_single (fun i => labels.getD i 0)
      (testOfClass labels frac seed) c labels.dedup (List.nodup_dedup labels)
      hc
      (fun c2 _ x hx =>
        (classIndices_mem labels c2 x
          (testOfClass_sub labels frac seed c2 x hx)).2)]
  exact testOfClass_length labels frac seed c

/-- C5: every Split produced by `generate_splits` has disjoint train and
test index sets, and for each class the number of its samples placed in
train equals `round(class_count * train_fraction)` (minimum 1) — hence is
within one sample of it — with the remainder of the class eligible for
test. -/
theorem generate_splits_invariants (labels : List ℕ) (frac : ℚ)
    (nreps seed : ℕ) (splits : List Split) (sp : Split)
    (hvalid : ∀ c ∈ labels.dedup, 2 ≤ countLabel labels c)
    (hf : frac ≤ 1)
    (hok : generate_splits labels frac nreps seed = Except.ok splits)
    (hsp : sp ∈ splits) :
    (∀ x, x ∈ sp.train → x ∉ sp.test) ∧
    (∀ c ∈ labels.dedup,
      (sp.train.filter (fun i => labels.getD i 0 == c)).length =
        trainCount frac (countLabel labels c) ∧
      (sp.test.filter (fun i => labels.getD i 0 == c)).length =
        countLabel labels c - trainCount frac (countLabel labels c)) := by
  unfold generate_splits at hok
  rw [dif_pos hvalid] at hok
  injection hok with hok
  subst hok
  obtain ⟨r, _, rfl⟩ := List.mem_map.mp hsp
  refine ⟨fun x hx1 hx2 =>
    makeSplit_disjoint labels frac (seed + r) x hx1 hx2, fun c hc => ?_⟩
  have h1 : 1 ≤ countLabel labels c := le_trans (by omega) (hvalid c hc)
  exact ⟨makeSplit_train_count labels frac (seed + r) c hc h1 hf,
    makeSplit_test_count labels frac (seed + r) c hc⟩

/-- C5 witness: the one split generated for two classes of two samples each
at training fraction 1. -/
theorem generate_splits_invariants_witness :
    (∀ x, x ∈ (makeSplit [0, 0, 1, 1] 1 (0 + 0)).train →
      x ∉ (makeSplit [0, 0, 1, 1] 1 (0 + 0)).test) ∧
    (∀ c ∈ ([0, 0, 1, 1] : List ℕ).dedup,
      ((makeSplit [0, 0, 1, 1] 1 (0 + 0)).train.filter
          (fun i => ([0, 0, 1, 1] : List ℕ).getD i 0 == c)).length =
        trainCount 1 (countLabel [0, 0, 1, 1] c) ∧
      ((makeSplit [0, 0, 1, 1] 1 (0 + 0)).test.filter
          (fun i => ([0, 0, 1, 1] : List ℕ).getD i 0 == c)).length =
        countLabel [0, 0, 1, 1] c - trainCount 1 (countLabel [0, 0, 1, 1] c)) :=
  generate_splits_invariants [0, 0, 1, 1] 1 1 0
    [makeSplit [0, 0, 1, 1] 1 (0 + 0)] (makeSplit [0, 0, 1, 1] 1 (0 + 0))
    (by decide) le_rfl rfl (List.mem_singleton.mpr rfl)
